import Mathlib

/-!
Verification development for the bitwiseai dual-layer memory subsystem
(chunker, indexer, storage layer, hybrid searcher, compaction), shallowly
embedded from bitwiseai/core/memory/{chunker,indexer,storage,searcher,
manager,types}.py.

Modelling conventions:
* Python str is modelled as List Char (code-point sequence); Python
  len/slicing on str counts code points, matching List.length/take.
* Python float scores are modelled as rationals; the arithmetic performed
  by the code on the values the claims mention (products and sums of
  weights 0.7/0.3 with scores 0 and 1) is exact in both semantics.
* hashlib.sha256(text).hexdigest()[:16] is abstracted as a parameter
  sha256hex16 : Str -> Str, and the full hexdigest used for file hashes as
  a parameter of the indexer; the claims depend only on the hash being a
  function of the text.
* Python list.sort / sorted are stable sorts; List.insertionSort is a
  stable sort, hence observably the same function on any key.
-/

/-- Python strings are modelled as lists of characters. -/
abbrev Str := List Char

/-- Python str.split(sep) for a single-character separator, keeping empty
pieces, as in content.split(chr) in chunker.py line 47. -/
def splitOnChar (c : Char) : Str → List Str
  | [] => [[]]
  | x :: xs =>
    match splitOnChar c xs with
    | [] => [[]]
    | h :: t => if x = c then [] :: h :: t else (x :: h) :: t

/-- True when the string is empty or whitespace, mirroring the Python test
`not content or not content.strip()`. -/
def isBlankStr (s : Str) : Bool := s.all (fun ch => ch.isWhitespace)

/-- Decimal rendering of a natural number, mirroring the f-string use of an
int in Python. -/
def natStr (n : Nat) : Str := Nat.toDigits 10 n

/-- ChunkConfig from types.py: token budget and overlap. -/
structure ChunkConfig where
  tokens : Nat := 400
  overlap : Nat := 80
deriving DecidableEq

/-- types.py ChunkConfig.max_chars: tokens * 4. -/
def ChunkConfig.max_chars (c : ChunkConfig) : Nat := c.tokens * 4

/-- types.py ChunkConfig.overlap_chars: overlap * 4. -/
def ChunkConfig.overlap_chars (c : ChunkConfig) : Nat := c.overlap * 4

/-- MemoryChunk from types.py (metadata omitted: no claim observes it). -/
structure MemoryChunk where
  id : Str
  text : Str
  start_line : Int
  end_line : Int
  hash : Str
  path : Str
  source : Str
deriving DecidableEq

/-- The chunker together with the abstracted 16-hex-character truncated
SHA-256 used by MarkdownChunker._create_chunk. -/
structure MarkdownChunker where
  config : ChunkConfig
  sha256hex16 : Str → Str

/-- chunker.py _create_chunk: builds the chunk id
source:path:chunk_idx:hash16 and converts the 0-indexed line span to
1-indexed. -/
def MarkdownChunker.create_chunk (M : MarkdownChunker) (text path source : Str)
    (start_line end_line : Int) (chunk_idx : Nat) : MemoryChunk :=
  let content_hash := M.sha256hex16 text
  { id := source ++ [':'] ++ path ++ [':'] ++ natStr chunk_idx ++ [':'] ++ content_hash
    text := text
    start_line := start_line + 1
    end_line := end_line + 1
    hash := content_hash
    path := path
    source := source }

/-- chunker.py lines 79-84: walk backward through the sealed buffer lines
(each counted with its trailing newline) accumulating lines until adding
one more would exceed overlap_chars; returns the kept suffix in original
order. The argument is the reversed buffer, the accumulator the size
gathered so far. -/
def overlapWalk (oc : Nat) : List Str → Nat → List Str
  | [], _ => []
  | l :: rest, size =>
    if size + (l.length + 1) > oc then []
    else overlapWalk oc rest (size + (l.length + 1)) ++ [l]

/-- Total character count of buffer lines, each with its trailing newline,
as accumulated in current_size / overlap_size in chunker.py. -/
def linesSize (ls : List Str) : Nat := ls.foldl (fun a l => a + (l.length + 1)) 0

/-- chunker.py line 62/96: ''.join(lines each with newline).rstrip(newline)
equals the newline-join of the buffer with trailing empty lines removed
(buffer lines contain no newline character). -/
def joinRstrip (ls : List Str) : Str :=
  List.intercalate ['\n'] ((ls.reverse.dropWhile (fun l => l = [])).reverse)

/-- The enumerated loop of MarkdownChunker.chunk (chunker.py lines 55-92)
plus the final flush (lines 95-106). State: sealed chunks so far, next
chunk ordinal, current buffer lines, 0-indexed buffer start, buffer size in
characters; then the current line index and the remaining lines. -/
def MarkdownChunker.chunkLoop (M : MarkdownChunker) (path source : Str)
    (chunks : List MemoryChunk) (chunkIdx : Nat) (cur : List Str)
    (curStart : Int) (curSize : Nat) (i : Nat) : List Str → List MemoryChunk
  | [] =>
    if cur.isEmpty then chunks
    else chunks ++ [M.create_chunk (joinRstrip cur) path source curStart ((i : Int) - 1) chunkIdx]
  | line :: rest =>
    let lineSize := line.length + 1
    if curSize + lineSize > M.config.max_chars ∧ ¬ cur.isEmpty then
      let sealed := M.create_chunk (joinRstrip cur) path source curStart ((i : Int) - 1) chunkIdx
      let ov := overlapWalk M.config.overlap_chars cur.reverse 0
      M.chunkLoop path source (chunks ++ [sealed]) (chunkIdx + 1) (ov ++ [line])
        ((i : Int) - ov.length + 1) (linesSize ov + lineSize) (i + 1) rest
    else
      M.chunkLoop path source chunks chunkIdx (cur ++ [line]) curStart
        (curSize + lineSize) (i + 1) rest

/-- MarkdownChunker.chunk from chunker.py: blank content yields no chunks,
otherwise the line loop over content.split of the newline character. -/
def MarkdownChunker.chunk (M : MarkdownChunker) (content path source : Str) :
    List MemoryChunk :=
  if isBlankStr content then []
  else M.chunkLoop path source [] 0 [] 0 0 0 (splitOnChar '\n' content)

/-- ChunkRecord from types.py. -/
structure ChunkRecord where
  id : Str
  path : Str
  source : Str
  start_line : Int
  end_line : Int
  hash : Str
  model : Str
  text : Str
  embedding : List ℚ
  updated_at : Int
deriving DecidableEq

/-- A row of the files table (storage.py / schema.py): path is the primary
key. -/
structure FileRec where
  path : Str
  source : Str
  hash : Str
  mtime : Int
  size : Int
deriving DecidableEq

/-- The SQLite chunks and files tables, listed in rowid order. The FTS
shadow table is trigger-synchronized with chunks and is therefore not a
separate component of the state. -/
structure StorageState where
  files : List FileRec
  chunks : List ChunkRecord
deriving DecidableEq

/-- Empty database right after SQLiteStorage.initialize. -/
def StorageState.empty : StorageState := { files := [], chunks := [] }

/-- INSERT ... ON CONFLICT(path) DO UPDATE over a primary-key column:
replace the (unique) conflicting row in place, else append. -/
def upsertFileRow (f : FileRec) : List FileRec → List FileRec
  | [] => [f]
  | g :: gs => if g.path = f.path then f :: gs else g :: upsertFileRow f gs

/-- storage.py upsert_file. -/
def StorageState.upsert_file (st : StorageState) (path source file_hash : Str)
    (mtime size : Int) : StorageState :=
  { st with files := upsertFileRow ⟨path, source, file_hash, mtime, size⟩ st.files }

/-- storage.py get_file_hash: SELECT hash FROM files WHERE path AND source,
first row. -/
def StorageState.get_file_hash (st : StorageState) (path source : Str) : Option Str :=
  (st.files.find? (fun g => g.path = path ∧ g.source = source)).map (fun g => g.hash)

/-- INSERT ... ON CONFLICT(id) DO UPDATE on the chunks table: replace the
conflicting row in place, else append (schema.py UPSERT_CHUNK). -/
def upsertChunkRow (r : ChunkRecord) : List ChunkRecord → List ChunkRecord
  | [] => [r]
  | g :: gs => if g.id = r.id then r :: gs else g :: upsertChunkRow r gs

/-- storage.py upsert_chunk (the FTS mirror follows by trigger; the vector
mirror is not part of the claims modelled here). -/
def StorageState.upsert_chunk (st : StorageState) (r : ChunkRecord) : StorageState :=
  { st with chunks := upsertChunkRow r st.chunks }

/-- storage.py delete_chunks_by_path: DELETE FROM chunks WHERE path AND
source; returns the deleted count as the Python method does. -/
def StorageState.delete_chunks_by_path (st : StorageState) (path source : Str) :
    Nat × StorageState :=
  ((st.chunks.filter (fun r => r.path = path ∧ r.source = source)).length,
   { st with chunks := st.chunks.filter (fun r => ¬ (r.path = path ∧ r.source = source)) })

/-- storage.py get_chunks_by_path (schema.py GET_CHUNKS_BY_PATH: no ORDER
BY, rows come back in table order). -/
def StorageState.get_chunks_by_path (st : StorageState) (path source : Str) :
    List ChunkRecord :=
  st.chunks.filter (fun r => r.path = path ∧ r.source = source)

/-- storage.py get_chunk_count with an optional source filter. -/
def StorageState.get_chunk_count (st : StorageState) (source : Option Str) : Nat :=
  match source with
  | some s => (st.chunks.filter (fun r => r.source = s)).length
  | none => st.chunks.length

/-- storage.py get_chunk_by_id: first row with the id (id is the primary
key). -/
def StorageState.get_chunk_by_id (st : StorageState) (chunk_id : Str) :
    Option ChunkRecord :=
  st.chunks.find? (fun r => r.id = chunk_id)

/-- IndexResult from types.py. -/
structure IndexResult where
  file_path : Str
  chunks_indexed : Nat
  chunks_skipped : Nat
  success : Bool
  error : Option Str := none
deriving DecidableEq

/-- MemoryIndexer from indexer.py. fileHash abstracts
hashlib.sha256(content).hexdigest() in _calculate_hash; embedOf abstracts
the embedding assigned to a chunk text by _embed_chunks_sync (embedding
cache consulted first, provider batch call for misses) — the claims
settled here do not observe embedding values, only that each stored chunk
carries some embedding of its text; now supplies int(time.time()). -/
structure MemoryIndexer where
  chunker : MarkdownChunker
  fileHash : Str → Str
  embedOf : Str → List ℚ
  model : Str
  now : Int

/-- The ChunkRecord built for a MemoryChunk in indexer.py lines 110-123. -/
def MemoryIndexer.recordOf (I : MemoryIndexer) (c : MemoryChunk) : ChunkRecord :=
  { id := c.id, path := c.path, source := c.source, start_line := c.start_line,
    end_line := c.end_line, hash := c.hash, model := I.model, text := c.text,
    embedding := I.embedOf c.text, updated_at := I.now }

/-- indexer.py index_file: hash compare, short-circuit on unchanged file,
otherwise delete-all then rechunk, embed, upsert chunks and file record.
mtime is passed explicitly (the Python default stats the filesystem). The
exception branch of the Python code is not reachable in this pure model,
so success is always true. -/
def MemoryIndexer.index_file (I : MemoryIndexer) (st : StorageState)
    (file_path content source : Str) (mtime : Int) : IndexResult × StorageState :=
  let content_hash := I.fileHash content
  if st.get_file_hash file_path source = some content_hash then
    (⟨file_path, 0, st.get_chunk_count (some source), true, none⟩, st)
  else
    let st1 := (st.delete_chunks_by_path file_path source).2
    let chunks := I.chunker.chunk content file_path source
    if chunks.isEmpty then
      let st2 := st1.upsert_file file_path source content_hash mtime content.length
      (⟨file_path, 0, 0, true, none⟩, st2)
    else
      let st2 := chunks.foldl (fun acc c => acc.upsert_chunk (I.recordOf c)) st1
      let st3 := st2.upsert_file file_path source content_hash mtime content.length
      (⟨file_path, chunks.length, 0, true, none⟩, st3)

/-- HybridConfig from types.py (fields as configured, before
__post_init__). -/
structure HybridConfig where
  vector_weight : ℚ
  text_weight : ℚ
  candidate_multiplier : Nat
  min_score : ℚ
deriving DecidableEq

/-- types.py HybridConfig.__post_init__: when the configured weights do not
already sum to 1 and their total is positive, both are divided by the
total. -/
def HybridConfig.postInit (c : HybridConfig) : HybridConfig :=
  let total := c.vector_weight + c.text_weight
  if total ≠ 1 ∧ total > 0 then
    { c with vector_weight := c.vector_weight / total, text_weight := c.text_weight / total }
  else c

/-- Constructing a HybridConfig as the Python dataclass does: field values
then __post_init__. -/
def mkHybridConfig (vector_weight text_weight : ℚ) (candidate_multiplier : Nat)
    (min_score : ℚ) : HybridConfig :=
  HybridConfig.postInit ⟨vector_weight, text_weight, candidate_multiplier, min_score⟩

/-- The dataclass defaults of HybridConfig: 0.7 / 0.3, multiplier 2,
min_score 0.5. -/
def defaultHybridConfig : HybridConfig := mkHybridConfig (7/10) (3/10) 2 (1/2)

/-- VectorSearchResult from types.py (embedding field omitted, never set by
the searches modelled here). -/
structure VectorSearchResult where
  chunk_id : Str
  score : ℚ
deriving DecidableEq

/-- FTSSearchResult from types.py. -/
structure FTSSearchResult where
  chunk_id : Str
  score : ℚ
deriving DecidableEq

/-- SearchResult from types.py (metadata omitted). -/
structure SearchResult where
  chunk_id : Str
  path : Str
  source : Str
  text : Str
  snippet : Str
  score : ℚ
  start_line : Int
  end_line : Int
deriving DecidableEq

/-- An entry of the result_map dict in MemorySearcher._merge_results. -/
structure MergeEntry where
  chunk_id : Str
  vector_score : ℚ
  text_score : ℚ
deriving DecidableEq

/-- searcher.py lines 151-156: result_map[vr.chunk_id] = fresh entry; a
Python dict keeps the position of an existing key and appends new keys. -/
def insertVectorHit : List MergeEntry → VectorSearchResult → List MergeEntry
  | [], v => [⟨v.chunk_id, v.score, 0⟩]
  | e :: es, v =>
    if e.chunk_id = v.chunk_id then ⟨v.chunk_id, v.score, 0⟩ :: es
    else e :: insertVectorHit es v

/-- searcher.py lines 159-167: merge a keyword hit into the map, recording
its text_score on an existing entry or creating one with vector_score 0. -/
def insertKeywordHit : List MergeEntry → FTSSearchResult → List MergeEntry
  | [], k => [⟨k.chunk_id, 0, k.score⟩]
  | e :: es, k =>
    if e.chunk_id = k.chunk_id then ⟨e.chunk_id, e.vector_score, k.score⟩ :: es
    else e :: insertKeywordHit es k

/-- The result_map after both loops of _merge_results. -/
def mergeMap (vector_results : List VectorSearchResult)
    (keyword_results : List FTSSearchResult) : List MergeEntry :=
  keyword_results.foldl insertKeywordHit (vector_results.foldl insertVectorHit [])

/-- The descending-score order used by _merge_results (list.sort with
reverse=True on the score key; both that sort and insertionSort are
stable). -/
def byScoreDesc (a b : SearchResult) : Prop := b.score ≤ a.score

instance : DecidableRel byScoreDesc := fun a b => inferInstanceAs (Decidable (b.score ≤ a.score))

/-- searcher.py _merge_results: weighted scores over the merged map, then
sort descending by score. Fields other than chunk_id and score are filled
with the placeholder values the Python code uses. -/
def merge_results (cfg : HybridConfig) (vector_results : List VectorSearchResult)
    (keyword_results : List FTSSearchResult) : List SearchResult :=
  let merged := (mergeMap vector_results keyword_results).map (fun e =>
    ({ chunk_id := e.chunk_id, path := [], source := [], text := [], snippet := [],
       score := cfg.vector_weight * e.vector_score + cfg.text_weight * e.text_score,
       start_line := 0, end_line := 0 } : SearchResult))
  List.insertionSort byScoreDesc merged

/-- searcher.py _enrich_results snippet: first 200 characters with newlines
replaced by spaces, ellipsis appended when truncated. -/
def snippetOf (text : Str) : Str :=
  let s := (text.take 200).map (fun ch => if ch = '\n' then ' ' else ch)
  if text.length > 200 then s ++ "...".toList else s

/-- searcher.py _enrich_results: replace each result by the full chunk data
when the chunk is found, otherwise keep the original result. -/
def enrich_results (lookup : Str → Option ChunkRecord) (results : List SearchResult) :
    List SearchResult :=
  results.map (fun r =>
    match lookup r.chunk_id with
    | some c =>
      { chunk_id := r.chunk_id, path := c.path, source := c.source, text := c.text,
        snippet := snippetOf c.text, score := r.score, start_line := c.start_line,
        end_line := c.end_line }
    | none => r)

/-- searcher.py line 61: min_score = min_score or self.config.min_score;
a passed 0.0 is falsy and falls back to the configured default. -/
def effective_min_score (min_score : Option ℚ) (cfg : HybridConfig) : ℚ :=
  match min_score with
  | some m => if m = 0 then cfg.min_score else m
  | none => cfg.min_score

/-- MemorySearcher with its collaborators abstracted as the outcomes they
produce: embedQuery may raise (Except.error models the exception from the
embedding provider), and so may each retrieval channel. -/
structure MemorySearcher where
  config : HybridConfig
  embedQuery : Str → Except Str (List ℚ)
  searchVectors : List ℚ → Nat → Option (List Str) → Except Str (List VectorSearchResult)
  searchKeywords : Str → Nat → Option (List Str) → Except Str (List FTSSearchResult)
  lookupChunk : Str → Option ChunkRecord

/-- searcher.py search: short-circuit on blank query; embed the query (an
exception here is not caught and propagates); run both channels, mapping a
channel exception to an empty hit list (asyncio.gather with
return_exceptions=True, lines 73-83); merge, filter by min_score, truncate
to max_results, enrich. -/
def MemorySearcher.search (S : MemorySearcher) (query : Str) (max_results : Nat)
    (min_score : Option ℚ) (source_filter : Option (List Str)) :
    Except Str (List SearchResult) :=
  if isBlankStr query then Except.ok []
  else
    let ms := effective_min_score min_score S.config
    let candidates := max_results * S.config.candidate_multiplier
    match S.embedQuery query with
    | Except.error e => Except.error e
    | Except.ok query_vec =>
      let vector_results := match S.searchVectors query_vec candidates source_filter with
        | Except.error _ => []
        | Except.ok v => v
      let keyword_results := match S.searchKeywords query candidates source_filter with
        | Except.error _ => []
        | Except.ok k => k
      let merged := merge_results S.config vector_results keyword_results
      let filtered := (merged.filter (fun r => ms ≤ r.score)).take max_results
      Except.ok (enrich_results S.lookupChunk filtered)

/-- Descending order on vector hits, as used by the fallback vector search
(results.sort by score, reverse=True). -/
def byVScoreDesc (a b : VectorSearchResult) : Prop := b.score ≤ a.score

instance : DecidableRel byVScoreDesc := fun a b => inferInstanceAs (Decidable (b.score ≤ a.score))

/-- Ascending BM25-rank order of the FTS rows (SQL ORDER BY rank). -/
def byRankAsc (rank : ChunkRecord → ℚ) (a b : ChunkRecord) : Prop := rank a ≤ rank b

instance (rank : ChunkRecord → ℚ) : DecidableRel (byRankAsc rank) :=
  fun a b => inferInstanceAs (Decidable (rank a ≤ rank b))

/-- Whether a row passes the SQL source filter (source IN (...)). -/
def sourceOk (source_filter : Option (List Str)) (r : ChunkRecord) : Bool :=
  match source_filter with
  | some ss => ss.contains r.source
  | none => true

/-- storage.py _search_vectors_manual, the brute-force fallback used when
the native vector index is not ready: select rows passing the source
filter with a non-empty serialized embedding, score each by cosine
similarity (skipping rows where either norm is zero), sort descending,
take the top limit. cosSim abstracts the floating-point cosine of
query vector and row embedding; none models the skipped zero-norm case. -/
def search_vectors_manual (db : List ChunkRecord) (cosSim : List ℚ → List ℚ → Option ℚ)
    (query_vec : List ℚ) (limit : Nat) (source_filter : Option (List Str)) :
    List VectorSearchResult :=
  let rows := db.filter (fun r => sourceOk source_filter r ∧ r.embedding ≠ [])
  let scored := rows.filterMap (fun r =>
    (cosSim query_vec r.embedding).map (fun s => (⟨r.id, s⟩ : VectorSearchResult)))
  (List.insertionSort byVScoreDesc scored).take limit

/-- storage.py search_fts. ftsMatch abstracts the FTS5 MATCH of the
AND-of-terms query built from the tokenized query string; rank abstracts
the BM25 rank of a matching row. With a single source the filter is part
of the SQL; with several sources rows are post-filtered through
get_chunk_by_id and truncated again; an empty filter list is falsy in
Python and behaves as no filter. Each row scores 1/(1+|rank|). -/
def search_fts (db : List ChunkRecord) (ftsMatch : Str → ChunkRecord → Bool)
    (rank : Str → ChunkRecord → ℚ) (query : Str) (limit : Nat)
    (source_filter : Option (List Str)) : List FTSSearchResult :=
  match source_filter with
  | some [s] =>
    let rows := db.filter (fun r => ftsMatch query r ∧ r.source = s)
    ((List.insertionSort (byRankAsc (rank query)) rows).take limit).map
      (fun r => ⟨r.id, 1 / (1 + |rank query r|)⟩)
  | some (s1 :: s2 :: srest) =>
    let rows := db.filter (fun r => ftsMatch query r)
    let results := ((List.insertionSort (byRankAsc (rank query)) rows).take limit).map
      (fun r => (⟨r.id, 1 / (1 + |rank query r|)⟩ : FTSSearchResult))
    (results.filter (fun fr =>
      match db.find? (fun r => r.id = fr.chunk_id) with
      | some c => (s1 :: s2 :: srest).contains c.source
      | none => false)).take limit
  | _ =>
    let rows := db.filter (fun r => ftsMatch query r)
    ((List.insertionSort (byRankAsc (rank query)) rows).take limit).map
      (fun r => ⟨r.id, 1 / (1 + |rank query r|)⟩)

/-- The searcher wired to the storage layer as in searcher.py: both
channels are the storage queries (which do not themselves raise in this
model), chunk lookup is get_chunk_by_id over the same database state. -/
def mkStorageSearcher (db : List ChunkRecord) (cfg : HybridConfig)
    (embed : Str → Except Str (List ℚ)) (cosSim : List ℚ → List ℚ → Option ℚ)
    (ftsMatch : Str → ChunkRecord → Bool) (rank : Str → ChunkRecord → ℚ) :
    MemorySearcher :=
  { config := cfg
    embedQuery := embed
    searchVectors := fun qv limit filt => Except.ok (search_vectors_manual db cosSim qv limit filt)
    searchKeywords := fun q limit filt => Except.ok (search_fts db ftsMatch rank q limit filt)
    lookupChunk := fun chunk_id => db.find? (fun r => r.id = chunk_id) }

/-- CompactResult from types.py. -/
structure CompactResult where
  files_compacted : Nat
  files_archived : Nat
  summaries_generated : Nat
deriving DecidableEq

/-- What happened to one file during compact_short_term. -/
inductive CompactAction where
  | promoted
  | archived
  | deleted
  | skipped
deriving DecidableEq

/-- A daily file of the short-term memory directory: its stem (filename
without extension) and its content. -/
structure MemFile where
  stem : Str
  content : Str
deriving DecidableEq

/-- Whether a file is older than the retention cutoff: its stem parses as a
date and that date is before the cutoff. parseDate abstracts
datetime.strptime(stem, the year-month-day pattern), returning the date as
an ordinal; none models the ValueError branch. -/
def isOldFile (parseDate : Str → Option Int) (cutoff : Int) (f : MemFile) : Bool :=
  match parseDate f.stem with
  | some d => d < cutoff
  | none => false

/-- The per-file decision of the compaction loop body (manager.py lines
250-285): summarize promotes, archive moves, anything else deletes; files
not older than the cutoff or with unparseable stems are skipped. -/
def compactFileAction (parseDate : Str → Option Int) (cutoff : Int) (strategy : Str)
    (f : MemFile) : CompactAction :=
  match parseDate f.stem with
  | none => CompactAction.skipped
  | some d =>
    if d < cutoff then
      if strategy = "summarize".toList then CompactAction.promoted
      else if strategy = "archive".toList then CompactAction.archived
      else CompactAction.deleted
    else CompactAction.skipped

/-- One iteration of the compaction loop, updating the counters and the
per-file action trace exactly as manager.py compact_short_term does:
summarize bumps summaries_generated, archive bumps files_archived, the
else branch deletes, and every compacted file bumps files_compacted. -/
def compactStep (parseDate : Str → Option Int) (cutoff : Int) (strategy : Str)
    (acc : CompactResult × List (Str × CompactAction)) (f : MemFile) :
    CompactResult × List (Str × CompactAction) :=
  match parseDate f.stem with
  | none => (acc.1, acc.2 ++ [(f.stem, CompactAction.skipped)])
  | some d =>
    if d < cutoff then
      if strategy = "summarize".toList then
        ({ acc.1 with summaries_generated := acc.1.summaries_generated + 1,
                      files_compacted := acc.1.files_compacted + 1 },
         acc.2 ++ [(f.stem, CompactAction.promoted)])
      else if strategy = "archive".toList then
        ({ acc.1 with files_archived := acc.1.files_archived + 1,
                      files_compacted := acc.1.files_compacted + 1 },
         acc.2 ++ [(f.stem, CompactAction.archived)])
      else
        ({ acc.1 with files_compacted := acc.1.files_compacted + 1 },
         acc.2 ++ [(f.stem, CompactAction.deleted)])
    else (acc.1, acc.2 ++ [(f.stem, CompactAction.skipped)])

/-- manager.py compact_short_term over the daily files of the short-term
directory: cutoff is now minus days_to_keep (datetime arithmetic on day
ordinals), then the loop over the files. The result counters are returned
together with a trace recording the action applied to each file. -/
def compact_short_term (parseDate : Str → Option Int) (now days_to_keep : Int)
    (strategy : Str) (files : List MemFile) :
    CompactResult × List (Str × CompactAction) :=
  files.foldl (compactStep parseDate (now - days_to_keep) strategy) (⟨0, 0, 0⟩, [])

/-- The vector score the merge step attributes to a chunk id: the score of
the hit with that id, or 0 when the vector channel returned no hit for
it. -/
def vscoreOf (vec : List VectorSearchResult) (chunk_id : Str) : ℚ :=
  match vec.find? (fun v => v.chunk_id = chunk_id) with
  | some v => v.score
  | none => 0

/-- The keyword score the merge step attributes to a chunk id. -/
def tscoreOf (kw : List FTSSearchResult) (chunk_id : Str) : ℚ :=
  match kw.find? (fun k => k.chunk_id = chunk_id) with
  | some k => k.score
  | none => 0

/-- The id shape documented for a chunk at ordinal n:
source:path:n:sha256hex16(text), with the hash field matching the
suffix. -/
def chunkIdOk (M : MarkdownChunker) (path source : Str) (n : Nat) (c : MemoryChunk) : Prop :=
  c.id = source ++ [':'] ++ path ++ [':'] ++ natStr n ++ [':'] ++ M.sha256hex16 c.text ∧
  c.hash = M.sha256hex16 c.text

/-- Every position of a chunk list carries the documented id shape. -/
def chunkIdsOk (M : MarkdownChunker) (path source : Str) (l : List MemoryChunk) : Prop :=
  ∀ n c, l[n]? = some c → chunkIdOk M path source n c

/-- Identity stand-in for the abstracted hash functions in concrete
fixtures (all fixture texts are distinct, so injectivity matches the
collision-free behavior of SHA-256 on them). -/
def idHash : Str → Str := fun t => t

/-- Concrete indexer fixture: identity hashes, empty embeddings. -/
def fixtureIndexer : MemoryIndexer :=
  { chunker := ⟨⟨400, 80⟩, idHash⟩, fileHash := idHash, embedOf := fun _ => [],
    model := [], now := 0 }

/-- A searcher whose embedding provider raises on every query. -/
def c5FailSearcher : MemorySearcher :=
  { config := defaultHybridConfig
    embedQuery := fun _ => Except.error ("embedding failed".toList)
    searchVectors := fun _ _ _ => Except.ok []
    searchKeywords := fun _ _ _ => Except.ok []
    lookupChunk := fun _ => none }

/-- A searcher whose query embedding succeeds but both retrieval channels
raise. -/
def c5ChannelFailSearcher : MemorySearcher :=
  { config := defaultHybridConfig
    embedQuery := fun _ => Except.ok []
    searchVectors := fun _ _ _ => Except.error ("vector channel failed".toList)
    searchKeywords := fun _ _ _ => Except.error ("fts channel failed".toList)
    lookupChunk := fun _ => none }

/-- A searcher whose keyword channel returns one full-score hit while the
vector channel returns nothing: its merged score is text_weight = 0.3,
below the default min_score 0.5. -/
def c10Searcher : MemorySearcher :=
  { config := defaultHybridConfig
    embedQuery := fun _ => Except.ok []
    searchVectors := fun _ _ _ => Except.ok []
    searchKeywords := fun _ _ _ => Except.ok [⟨"b".toList, 1⟩]
    lookupChunk := fun _ => none }

/-- A docs chunk row for the source-filter fixture. -/
def docsRec : ChunkRecord :=
  { id := "docs:d:0:t".toList, path := "d".toList, source := "docs".toList,
    start_line := 1, end_line := 1, hash := "t".toList, model := "m".toList,
    text := "alpha".toList, embedding := [1], updated_at := 0 }

/-- A memory chunk row for the source-filter fixture. -/
def memRec : ChunkRecord :=
  { id := "memory:f:0:u".toList, path := "f".toList, source := "memory".toList,
    start_line := 1, end_line := 1, hash := "u".toList, model := "m".toList,
    text := "beta".toList, embedding := [1], updated_at := 0 }

/-- Storage-backed searcher fixture over one docs row and one memory
row. -/
def fixtureSearcher : MemorySearcher :=
  mkStorageSearcher [docsRec, memRec] defaultHybridConfig
    (fun _ => Except.ok [1]) (fun _ _ => some 1) (fun _ _ => true) (fun _ _ => 0)

/-- Daily-file fixture for compaction: one stem that parses as an old
date, one that does not parse. -/
def c8Files : List MemFile :=
  [⟨"2020-01-01".toList, "entry".toList⟩, ⟨"notes".toList, "misc".toList⟩]

/-- Date parser fixture: only the dated stem parses. -/
def c8Parse : Str → Option Int :=
  fun s => if s = "2020-01-01".toList then some 0 else none

instance : IsTotal SearchResult byScoreDesc := ⟨fun a b => le_total b.score a.score⟩

instance : IsTrans SearchResult byScoreDesc :=
  ⟨fun _ _ _ hab hbc => le_trans hbc hab⟩

theorem find?_key_of_not_mem {α κ : Type} [DecidableEq κ] (key : α → κ) (l : List α) (i : κ)
    (h : i ∉ l.map key) : l.find? (fun y => key y = i) = none := by
  induction l with
  | nil => rfl
  | cons a as ih =>
    simp only [List.map_cons, List.mem_cons, not_or] at h
    rw [List.find?_cons_of_neg _ (by simp only [decide_eq_true_eq]; exact fun e => h.1 e.symm)]
    exact ih h.2

theorem find?_key_self {α κ : Type} [DecidableEq κ] (key : α → κ) :
    ∀ (l : List α) (x : α), x ∈ l → (l.map key).Nodup →
    l.find? (fun y => key y = key x) = some x := by
  intro l
  induction l with
  | nil => intro x hx; simp at hx
  | cons a as ih =>
    intro x hx hnd
    simp only [List.map_cons, List.nodup_cons] at hnd
    rcases List.mem_cons.mp hx with rfl | hmem
    · exact List.find?_cons_of_pos _ (by simp)
    · have hne : key a ≠ key x := by
        intro e
        exact hnd.1 (e ▸ List.mem_map_of_mem key hmem)
      rw [List.find?_cons_of_neg _ (by simp [hne])]
      exact ih x hmem hnd.2

/-- C2 (code slip exhibited): with max_chars 8 and no overlap, the content
of three four-character lines chunks into three chunks; the second chunk
has text bbbb — line 2 of the content — but records start_line 3 and
end_line 2, so its range neither starts at its own first line (line 3 of
the content is cccc) nor satisfies start_line <= end_line. The loop sets
the next buffer start to i - len(overlap) + 1 where the buffer resumes at
line i - len(overlap), one line earlier. -/
theorem chunk_line_range_failing_input :
    (MarkdownChunker.chunk ⟨⟨2, 0⟩, idHash⟩ ("aaaa\nbbbb\ncccc".toList) ("p".toList)
        ("m".toList)).map (fun c => (c.text, c.start_line, c.end_line)) =
      [("aaaa".toList, 1, 1), ("bbbb".toList, 3, 2), ("cccc".toList, 4, 3)] ∧
    (splitOnChar '\n' ("aaaa\nbbbb\ncccc".toList))[2]? = some ("cccc".toList) :=
  ⟨by decide, by decide⟩

theorem chunkIdsOk_append (M : MarkdownChunker) (path source : Str)
    (chunks : List MemoryChunk) (c : MemoryChunk) (h : chunkIdsOk M path source chunks)
    (hc : chunkIdOk M path source chunks.length c) :
    chunkIdsOk M path source (chunks ++ [c]) := by
  intro n d hd
  rw [List.getElem?_append] at hd
  by_cases hlt : n < chunks.length
  · rw [if_pos hlt] at hd
    exact h n d hd
  · rw [if_neg hlt] at hd
    have hz : n - chunks.length = 0 := by
      rcases hk : n - chunks.length with _ | k
      · rfl
      · rw [hk] at hd; simp at hd
    have hn : n = chunks.length := by omega
    rw [hz] at hd
    simp only [List.getElem?_cons_zero, Option.some.injEq] at hd
    rw [hn, ← hd]
    exact hc

theorem chunkLoop_ids (M : MarkdownChunker) (path source : Str) :
    ∀ (rest : List Str) (chunks : List MemoryChunk) (cur : List Str) (curStart : Int)
      (curSize i : Nat), chunkIdsOk M path source chunks →
      chunkIdsOk M path source
        (M.chunkLoop path source chunks chunks.length cur curStart curSize i rest) := by
  intro rest
  induction rest with
  | nil =>
    intro chunks cur curStart curSize i h
    simp only [MarkdownChunker.chunkLoop]
    split
    · exact h
    · exact chunkIdsOk_append M path source chunks _ h ⟨rfl, rfl⟩
  | cons line rest ih =>
    intro chunks cur curStart curSize i h
    simp only [MarkdownChunker.chunkLoop]
    split
    · have hlen : chunks.length + 1 =
          (chunks ++ [M.create_chunk (joinRstrip cur) path source curStart ((i : Int) - 1)
            chunks.length]).length := by
        simp
      rw [hlen]
      exact ih _ _ _ _ _
        (chunkIdsOk_append M path source chunks _ h ⟨rfl, rfl⟩)
    · exact ih chunks (cur ++ [line]) curStart (curSize + (line.length + 1)) (i + 1) h

/-- C9: chunking is a pure function of content, path and source (so two
calls on byte-identical input agree on ids, texts and line ranges), and
the chunk at ordinal n carries the deterministic id
source:path:n:sha256hex16(text), whose hash suffix is exactly the
truncated hash of the chunk text (so the suffix changes exactly when the
hash of the text does). -/
theorem chunk_idempotent_and_id_format (M : MarkdownChunker) (content path source : Str) :
    M.chunk content path source = M.chunk content path source ∧
    ∀ n c, (M.chunk content path source)[n]? = some c →
      c.id = source ++ [':'] ++ path ++ [':'] ++ natStr n ++ [':'] ++ M.sha256hex16 c.text ∧
      c.hash = M.sha256hex16 c.text := by
  refine ⟨rfl, ?_⟩
  intro n c hc
  unfold MarkdownChunker.chunk at hc
  split at hc
  · simp at hc
  · exact chunkLoop_ids M path source (splitOnChar '\n' content) [] [] 0 0 0
      (fun n d hd => by simp at hd) n c hc

/-- Witness for C9 at a one-chunk input. -/
theorem chunk_id_format_witness :
    (let M0 : MarkdownChunker := ⟨⟨2, 0⟩, idHash⟩
     let c0 : MemoryChunk :=
       ⟨"m:p:0:hi".toList, "hi".toList, 1, 1, "hi".toList, "p".toList, "m".toList⟩
     c0.id = ("m".toList) ++ [':'] ++ ("p".toList) ++ [':'] ++ natStr 0 ++ [':'] ++
         M0.sha256hex16 c0.text ∧
     c0.hash = M0.sha256hex16 c0.text) :=
  (chunk_idempotent_and_id_format ⟨⟨2, 0⟩, idHash⟩ ("hi".toList) ("p".toList)
    ("m".toList)).2 0 _ (by decide)

/-- C7 (counterexample): a HybridConfig configured with weights 0 and 0
keeps them; after construction they sum to 0, not 1; the normalization in
__post_init__ is skipped whenever the configured total is not positive. -/
theorem hybrid_weights_zero_total :
    ¬ ((mkHybridConfig 0 0 2 (1/2)).vector_weight +
        (mkHybridConfig 0 0 2 (1/2)).text_weight = 1) := by
  norm_num [mkHybridConfig, HybridConfig.postInit]

/-- C7 (amended): whenever the configured weights have positive total,
construction normalizes them to sum to 1 while preserving their ratio; a
configured 0.7/0.3 stays exactly 0.7/0.3. -/
theorem hybrid_weights_normalize (vw tw : ℚ) (cm : Nat) (ms : ℚ) (h : 0 < vw + tw) :
    (mkHybridConfig vw tw cm ms).vector_weight +
        (mkHybridConfig vw tw cm ms).text_weight = 1 ∧
    (mkHybridConfig vw tw cm ms).vector_weight * tw =
        (mkHybridConfig vw tw cm ms).text_weight * vw ∧
    (mkHybridConfig (7/10) (3/10) 2 (1/2)).vector_weight = 7/10 ∧
    (mkHybridConfig (7/10) (3/10) 2 (1/2)).text_weight = 3/10 := by
  have hne : vw + tw ≠ 0 := ne_of_gt h
  refine ⟨?_, ?_, by norm_num [mkHybridConfig, HybridConfig.postInit],
    by norm_num [mkHybridConfig, HybridConfig.postInit]⟩
  · simp only [mkHybridConfig, HybridConfig.postInit]
    split_ifs with hcond
    · field_simp
    · rcases not_and_or.mp hcond with h1 | h2
      · exact not_not.mp h1
      · exact absurd h h2
  · simp only [mkHybridConfig, HybridConfig.postInit]
    split_ifs with hcond
    · field_simp
      ring
    · ring

/-- Witness for C7 at the default 0.7/0.3 configuration. -/
theorem hybrid_weights_normalize_witness :
    0 < (7 : ℚ)/10 + 3/10 ∧
    (mkHybridConfig (7/10) (3/10) 2 (1/2)).vector_weight +
        (mkHybridConfig (7/10) (3/10) 2 (1/2)).text_weight = 1 :=
  ⟨by norm_num, (hybrid_weights_normalize (7/10) (3/10) 2 (1/2) (by norm_num)).1⟩

theorem upsertFileRow_find (path source file_hash : Str) (mt sz : Int) :
    ∀ fs : List FileRec,
    (upsertFileRow ⟨path, source, file_hash, mt, sz⟩ fs).find?
      (fun g => g.path = path ∧ g.source = source) =
      some ⟨path, source, file_hash, mt, sz⟩ := by
  intro fs
  induction fs with
  | nil => simp [upsertFileRow]
  | cons g gs ih =>
    unfold upsertFileRow
    by_cases hg : g.path = path
    · rw [if_pos hg]
      exact List.find?_cons_of_pos _ (by simp)
    · rw [if_neg hg]
      rw [List.find?_cons_of_neg _ (by simp [hg])]
      exact ih

theorem get_file_hash_upsert (st : StorageState) (path source file_hash : Str)
    (mt sz : Int) :
    (st.upsert_file path source file_hash mt sz).get_file_hash path source =
      some file_hash := by
  unfold StorageState.upsert_file StorageState.get_file_hash
  simp only
  rw [upsertFileRow_find]
  rfl

theorem index_file_sets_hash (I : MemoryIndexer) (st : StorageState) (p c s : Str)
    (mt : Int) :
    ((I.index_file st p c s mt).2).get_file_hash p s = some (I.fileHash c) := by
  simp only [MemoryIndexer.index_file]
  split
  · next hcond => exact hcond
  · split
    · exact get_file_hash_upsert _ p s (I.fileHash c) mt c.length
    · exact get_file_hash_upsert _ p s (I.fileHash c) mt c.length

/-- C1 (counterexample to the per-file reading): starting from an empty
store, index f1 then f2 under source docs (one chunk each), then re-index
f1 with identical content. The fast path reports chunks_skipped = 2 (the
chunk count of the whole docs source, storage.get_chunk_count(source)),
while the chunk count stored for f1 itself is 1. -/
theorem index_file_skip_count_counterexample :
    (let docs := "docs".toList
     let st1 := (fixtureIndexer.index_file StorageState.empty ("f1".toList) ("x".toList)
       docs 0).2
     let st2 := (fixtureIndexer.index_file st1 ("f2".toList) ("y".toList) docs 0).2
     let r3 := (fixtureIndexer.index_file st2 ("f1".toList) ("x".toList) docs 0).1
     r3.success = true ∧ r3.chunks_indexed = 0 ∧ r3.chunks_skipped = 2 ∧
       (st2.get_chunks_by_path ("f1".toList) docs).length = 1) := by decide

/-- C1 (amended): re-indexing a file with byte-identical content
immediately after a successful index returns success, zero chunks indexed
and chunks_skipped equal to the chunk count currently stored for the whole
source of the file (which equals the chunk count of the file itself only
when it is the sole indexed file of that source), and leaves the store
unchanged. -/
theorem index_file_unchanged_fast_path (I : MemoryIndexer) (st : StorageState)
    (p c s : Str) (mt1 mt2 : Int) :
    (I.index_file (I.index_file st p c s mt1).2 p c s mt2).1 =
      ⟨p, 0, ((I.index_file st p c s mt1).2).get_chunk_count (some s), true, none⟩ ∧
    (I.index_file (I.index_file st p c s mt1).2 p c s mt2).2 =
      (I.index_file st p c s mt1).2 := by
  have hh := index_file_sets_hash I st p c s mt1
  generalize hst : (I.index_file st p c s mt1).2 = st1 at hh ⊢
  constructor
  · simp only [MemoryIndexer.index_file]
    rw [if_pos hh]
  · simp only [MemoryIndexer.index_file]
    rw [if_pos hh]

/-- C5 (counterexample): searcher.py awaits embed_query outside the
exception-absorbing gather, so an exception raised while embedding the
query propagates out of search instead of yielding an empty result
list. -/
theorem search_embed_error_propagates :
    c5FailSearcher.search ("hello".toList) 10 none none =
      Except.error ("embedding failed".toList) := by
  simp only [MemorySearcher.search, c5FailSearcher]
  rw [if_neg (by decide)]

/-- C5 (amended): whenever embedding the query succeeds, search returns a
result list — exceptions raised inside either retrieval channel are
treated as that channel contributing no hits and never propagate. -/
theorem search_ok_of_embed_ok (S : MemorySearcher) (query : Str) (max_results : Nat)
    (min_score : Option ℚ) (source_filter : Option (List Str)) (qv : List ℚ)
    (h : S.embedQuery query = Except.ok qv) :
    ∃ out, S.search query max_results min_score source_filter = Except.ok out := by
  unfold MemorySearcher.search
  split
  · exact ⟨[], rfl⟩
  · rw [h]
    exact ⟨_, rfl⟩

/-- Witness for C5 amended: both channels raising still yields a normal
(empty) result. -/
theorem search_ok_of_embed_ok_witness :
    c5ChannelFailSearcher.embedQuery ("hello".toList) = Except.ok [] ∧
    ∃ out, c5ChannelFailSearcher.search ("hello".toList) 10 none none = Except.ok out :=
  ⟨rfl, search_ok_of_embed_ok c5ChannelFailSearcher ("hello".toList) 10 none none [] rfl⟩

/-- C10: passing min_score=0.0 explicitly is falsy in Python, so search
behaves exactly as if min_score had been omitted — the configured
min_score still filters; concretely, a keyword-only hit whose merged score
is 0.3 (below the default 0.5) is dropped even though 0.0 was passed. -/
theorem search_min_score_zero_falls_back (S : MemorySearcher) (query : Str)
    (max_results : Nat) (source_filter : Option (List Str)) :
    S.search query max_results (some 0) source_filter =
      S.search query max_results none source_filter ∧
    (merge_results defaultHybridConfig [] [⟨"b".toList, 1⟩]).map
        (fun r => (r.chunk_id, r.score)) = [("b".toList, 3/10)] ∧
    c10Searcher.search ("q".toList) 10 (some 0) none = Except.ok [] := by
  refine ⟨?_, ?_, ?_⟩
  · unfold MemorySearcher.search
    have hms : effective_min_score (some 0) S.config = effective_min_score none S.config := by
      simp [effective_min_score]
    rw [hms]
  · norm_num [merge_results, mergeMap, insertKeywordHit, defaultHybridConfig,
      mkHybridConfig, HybridConfig.postInit, List.insertionSort, List.orderedInsert]
  · have hq : isBlankStr ("q".toList) = false := by decide
    norm_num [MemorySearcher.search, c10Searcher, hq, effective_min_score,
      merge_results, mergeMap, insertKeywordHit, defaultHybridConfig,
      mkHybridConfig, HybridConfig.postInit, List.insertionSort, List.orderedInsert,
      List.filter, enrich_results]

theorem compact_fold_spec (parse : Str → Option Int) (cutoff : Int) (strategy : Str) :
    ∀ (files : List MemFile) (acc : CompactResult × List (Str × CompactAction)),
    files.foldl (compactStep parse cutoff strategy) acc =
      (⟨acc.1.files_compacted + (files.filter (isOldFile parse cutoff)).length,
        acc.1.files_archived +
          (if strategy = "archive".toList
            then (files.filter (isOldFile parse cutoff)).length else 0),
        acc.1.summaries_generated +
          (if strategy = "summarize".toList
            then (files.filter (isOldFile parse cutoff)).length else 0)⟩,
       acc.2 ++ files.map (fun f => (f.stem, compactFileAction parse cutoff strategy f))) := by
  intro files
  induction files with
  | nil =>
    intro acc
    obtain ⟨⟨a, b, c⟩, tr⟩ := acc
    simp
  | cons f fs ih =>
    intro acc
    rw [List.foldl_cons, ih]
    obtain ⟨⟨a, b, c⟩, tr⟩ := acc
    rcases hp : parse f.stem with _ | d
    · simp [compactStep, compactFileAction, isOldFile, hp, List.filter_cons]
    · clear ih
      simp only [compactStep, compactFileAction, isOldFile, hp, List.filter_cons,
        decide_eq_true_eq]
      split_ifs <;> refine Prod.ext ?_ ?_ <;>
        simp_all [CompactResult.mk.injEq] <;>
        first
        | omega
        | rw [if_neg (by omega)]

/-- C8: compaction applies to each file exactly the action the strategy
designates — old dated files are summarized-and-promoted under summarize,
archived under archive, deleted under delete, and files whose stems do not
parse as a date are skipped — while files_compacted counts exactly the old
dated files regardless of strategy, files_archived counts them only under
archive, and summaries_generated only under summarize. -/
theorem compact_short_term_exclusive (parse : Str → Option Int) (now days_to_keep : Int)
    (strategy : Str) (files : List MemFile) :
    (compact_short_term parse now days_to_keep strategy files).2 =
      files.map (fun f => (f.stem, compactFileAction parse (now - days_to_keep) strategy f)) ∧
    (compact_short_term parse now days_to_keep strategy files).1.files_compacted =
      (files.filter (isOldFile parse (now - days_to_keep))).length ∧
    (compact_short_term parse now days_to_keep strategy files).1.summaries_generated =
      (if strategy = "summarize".toList
        then (files.filter (isOldFile parse (now - days_to_keep))).length else 0) ∧
    (compact_short_term parse now days_to_keep strategy files).1.files_archived =
      (if strategy = "archive".toList
        then (files.filter (isOldFile parse (now - days_to_keep))).length else 0) := by
  unfold compact_short_term
  rw [compact_fold_spec]
  simp

theorem insertVectorHit_fresh (m : List MergeEntry) (v : VectorSearchResult)
    (h : v.chunk_id ∉ m.map (fun e => e.chunk_id)) :
    insertVectorHit m v = m ++ [⟨v.chunk_id, v.score, 0⟩] := by
  induction m with
  | nil => rfl
  | cons e es ih =>
    simp only [List.map_cons, List.mem_cons, not_or] at h
    unfold insertVectorHit
    rw [if_neg (fun he => h.1 he.symm)]
    rw [ih h.2]
    rfl

theorem vec_foldl_spec :
    ∀ (vec : List VectorSearchResult) (m : List MergeEntry),
    (vec.map (fun v => v.chunk_id)).Nodup →
    (∀ v ∈ vec, v.chunk_id ∉ m.map (fun e => e.chunk_id)) →
    vec.foldl insertVectorHit m =
      m ++ vec.map (fun v => (⟨v.chunk_id, v.score, 0⟩ : MergeEntry)) := by
  intro vec
  induction vec with
  | nil => intro m _ _; simp
  | cons v vs ih =>
    intro m hnd hfresh
    simp only [List.map_cons, List.nodup_cons] at hnd
    rw [List.foldl_cons, insertVectorHit_fresh m v (hfresh v (List.mem_cons_self v vs))]
    have hfresh2 : ∀ w ∈ vs, w.chunk_id ∉
        (m ++ [(⟨v.chunk_id, v.score, 0⟩ : MergeEntry)]).map (fun e => e.chunk_id) := by
      intro w hw
      simp only [List.map_append, List.mem_append, not_or]
      refine ⟨hfresh w (List.mem_cons_of_mem v hw), ?_⟩
      simp only [List.map_cons, List.map_nil, List.mem_singleton]
      intro he
      exact hnd.1 (he ▸ List.mem_map_of_mem (fun v => v.chunk_id) hw)
    rw [ih _ hnd.2 hfresh2]
    simp

theorem insertKeywordHit_fresh (m : List MergeEntry) (k : FTSSearchResult)
    (h : k.chunk_id ∉ m.map (fun e => e.chunk_id)) :
    insertKeywordHit m k = m ++ [⟨k.chunk_id, 0, k.score⟩] := by
  induction m with
  | nil => rfl
  | cons e es ih =>
    simp only [List.map_cons, List.mem_cons, not_or] at h
    unfold insertKeywordHit
    rw [if_neg (fun he => h.1 he.symm)]
    rw [ih h.2]
    rfl

theorem map_upd_id_of_no_key (l : List MergeEntry) (i : Str) (sc : ℚ)
    (h : i ∉ l.map (fun e => e.chunk_id)) :
    l.map (fun e => if e.chunk_id = i then
        (⟨e.chunk_id, e.vector_score, sc⟩ : MergeEntry) else e) = l := by
  induction l with
  | nil => rfl
  | cons e es ih =>
    simp only [List.map_cons, List.mem_cons, not_or] at h
    simp only [List.map_cons]
    rw [if_neg (fun he => h.1 he.symm), ih h.2]

theorem insertKeywordHit_update (m : List MergeEntry) (k : FTSSearchResult)
    (hmem : k.chunk_id ∈ m.map (fun e => e.chunk_id))
    (hnd : (m.map (fun e => e.chunk_id)).Nodup) :
    insertKeywordHit m k = m.map (fun e => if e.chunk_id = k.chunk_id then
        (⟨e.chunk_id, e.vector_score, k.score⟩ : MergeEntry) else e) := by
  induction m with
  | nil => simp at hmem
  | cons e es ih =>
    simp only [List.map_cons, List.nodup_cons] at hnd
    unfold insertKeywordHit
    by_cases he : e.chunk_id = k.chunk_id
    · rw [if_pos he]
      simp only [List.map_cons, if_pos he]
      rw [map_upd_id_of_no_key es k.chunk_id k.score (he ▸ hnd.1)]
    · rw [if_neg he]
      simp only [List.map_cons, if_neg he]
      have hmem2 : k.chunk_id ∈ es.map (fun e => e.chunk_id) := by
        simp only [List.map_cons, List.mem_cons] at hmem
        rcases hmem with h1 | h1
        · exact absurd h1.symm he
        · exact h1
      rw [ih hmem2 hnd.2]

theorem map_upd_keeps_ids (l : List MergeEntry) (f : MergeEntry → MergeEntry)
    (hf : ∀ e, (f e).chunk_id = e.chunk_id) :
    (l.map f).map (fun e => e.chunk_id) = l.map (fun e => e.chunk_id) := by
  rw [List.map_map]
  exact List.map_congr_left (fun e _ => hf e)

theorem kw_foldl_spec :
    ∀ (kw : List FTSSearchResult) (m : List MergeEntry),
    (kw.map (fun k => k.chunk_id)).Nodup →
    (m.map (fun e => e.chunk_id)).Nodup →
    kw.foldl insertKeywordHit m =
      m.map (fun e => match kw.find? (fun k => k.chunk_id = e.chunk_id) with
                      | some k => (⟨e.chunk_id, e.vector_score, k.score⟩ : MergeEntry)
                      | none => e)
      ++ (kw.filter (fun k => k.chunk_id ∉ m.map (fun e => e.chunk_id))).map
          (fun k => (⟨k.chunk_id, 0, k.score⟩ : MergeEntry)) := by
  intro kw
  induction kw with
  | nil =>
    intro m _ _
    simp
  | cons k ks ih =>
    intro m hknd hmnd
    simp only [List.map_cons, List.nodup_cons] at hknd
    rw [List.foldl_cons]
    by_cases hk : k.chunk_id ∈ m.map (fun e => e.chunk_id)
    · rw [insertKeywordHit_update m k hk hmnd]
      have hids : (m.map (fun e => if e.chunk_id = k.chunk_id then
          (⟨e.chunk_id, e.vector_score, k.score⟩ : MergeEntry) else e)).map
            (fun e => e.chunk_id) = m.map (fun e => e.chunk_id) :=
        map_upd_keeps_ids m _ (fun e => by
          by_cases h : e.chunk_id = k.chunk_id <;> simp [h])
      rw [ih _ hknd.2 (by rw [hids]; exact hmnd)]
      congr 1
      · rw [List.map_map]
        refine List.map_congr_left (fun e he => ?_)
        by_cases he2 : e.chunk_id = k.chunk_id
        · rw [List.find?_cons_of_pos _ (by simp [he2.symm])]
          simp only [Function.comp, if_pos he2]
          rw [find?_key_of_not_mem (fun k2 => k2.chunk_id) ks e.chunk_id
            (he2 ▸ hknd.1)]
        · rw [List.find?_cons_of_neg _ (by
            simp only [decide_eq_true_eq]; exact fun e2 => he2 e2.symm)]
          simp only [Function.comp, if_neg he2]
      · rw [List.filter_cons, if_neg (by simp [hk])]
        simp only [hids]
    · rw [insertKeywordHit_fresh m k hk]
      have hnd2 : ((m ++ [(⟨k.chunk_id, 0, k.score⟩ : MergeEntry)]).map
          (fun e => e.chunk_id)).Nodup := by
        rw [List.map_append]
        refine List.Nodup.append hmnd (by simp) ?_
        intro a ha hae
        simp only [List.map_cons, List.map_nil, List.mem_singleton] at hae
        exact hk (hae ▸ ha)
      rw [ih _ hknd.2 hnd2]
      rw [List.map_append]
      simp only [List.map_cons, List.map_nil]
      rw [show (match ks.find? (fun k2 => k2.chunk_id =
          (⟨k.chunk_id, 0, k.score⟩ : MergeEntry).chunk_id) with
          | some k2 => (⟨(⟨k.chunk_id, 0, k.score⟩ : MergeEntry).chunk_id,
              (⟨k.chunk_id, 0, k.score⟩ : MergeEntry).vector_score, k2.score⟩ : MergeEntry)
          | none => (⟨k.chunk_id, 0, k.score⟩ : MergeEntry)) =
          (⟨k.chunk_id, 0, k.score⟩ : MergeEntry) from by
        rw [show (⟨k.chunk_id, 0, k.score⟩ : MergeEntry).chunk_id = k.chunk_id from rfl,
          find?_key_of_not_mem (fun k2 => k2.chunk_id) ks k.chunk_id hknd.1]]
      rw [List.filter_cons, if_pos (by simpa using hk)]
      simp only [List.map_cons]
      rw [List.append_assoc, List.singleton_append]
      congr 1
      · refine List.map_congr_left (fun e he => ?_)
        have hne : ¬ k.chunk_id = e.chunk_id :=
          fun h2 => hk (h2 ▸ List.mem_map_of_mem (fun e => e.chunk_id) he)
        rw [List.find?_cons_of_neg _ (by simpa using hne)]
      · have hfilt : ks.filter (fun k2 => k2.chunk_id ∉
            (m ++ [(⟨k.chunk_id, 0, k.score⟩ : MergeEntry)]).map (fun e => e.chunk_id)) =
            ks.filter (fun k2 => k2.chunk_id ∉ m.map (fun e => e.chunk_id)) := by
          refine List.filter_congr (fun k2 hk2 => ?_)
          have hne : ¬ k2.chunk_id = k.chunk_id :=
            fun h2 => hknd.1 (h2 ▸ List.mem_map_of_mem (fun k3 => k3.chunk_id) hk2)
          simp [List.map_append, hne]
        rw [hfilt]

theorem mergeMap_spec (vec : List VectorSearchResult) (kw : List FTSSearchResult)
    (hv : (vec.map (fun v => v.chunk_id)).Nodup)
    (hk : (kw.map (fun k => k.chunk_id)).Nodup) :
    mergeMap vec kw =
      vec.map (fun v => (⟨v.chunk_id, v.score, tscoreOf kw v.chunk_id⟩ : MergeEntry))
      ++ (kw.filter (fun k => k.chunk_id ∉ vec.map (fun v => v.chunk_id))).map
          (fun k => (⟨k.chunk_id, 0, k.score⟩ : MergeEntry)) := by
  unfold mergeMap
  rw [vec_foldl_spec vec [] hv (by simp)]
  simp only [List.nil_append]
  have hidm : (vec.map (fun v => (⟨v.chunk_id, v.score, 0⟩ : MergeEntry))).map
      (fun e => e.chunk_id) = vec.map (fun v => v.chunk_id) := by
    rw [List.map_map]; rfl
  rw [kw_foldl_spec kw _ hk (by rw [hidm]; exact hv)]
  congr 1
  · rw [List.map_map]
    refine List.map_congr_left (fun v _ => ?_)
    simp only [Function.comp]
    unfold tscoreOf
    cases kw.find? (fun k => k.chunk_id = v.chunk_id) <;> rfl
  · simp only [hidm]

theorem vscoreOf_of_mem (vec : List VectorSearchResult) (v : VectorSearchResult)
    (hmem : v ∈ vec) (hnd : (vec.map (fun v => v.chunk_id)).Nodup) :
    vscoreOf vec v.chunk_id = v.score := by
  unfold vscoreOf
  rw [find?_key_self (fun v => v.chunk_id) vec v hmem hnd]

theorem vscoreOf_of_not_mem (vec : List VectorSearchResult) (i : Str)
    (h : i ∉ vec.map (fun v => v.chunk_id)) : vscoreOf vec i = 0 := by
  unfold vscoreOf
  rw [find?_key_of_not_mem (fun v => v.chunk_id) vec i h]

theorem tscoreOf_of_mem (kw : List FTSSearchResult) (k : FTSSearchResult)
    (hmem : k ∈ kw) (hnd : (kw.map (fun k => k.chunk_id)).Nodup) :
    tscoreOf kw k.chunk_id = k.score := by
  unfold tscoreOf
  rw [find?_key_self (fun k => k.chunk_id) kw k hmem hnd]

theorem mergeMap_entry_spec (vec : List VectorSearchResult) (kw : List FTSSearchResult)
    (hv : (vec.map (fun v => v.chunk_id)).Nodup)
    (hk : (kw.map (fun k => k.chunk_id)).Nodup) :
    ∀ e ∈ mergeMap vec kw,
      e.vector_score = vscoreOf vec e.chunk_id ∧ e.text_score = tscoreOf kw e.chunk_id := by
  intro e he
  rw [mergeMap_spec vec kw hv hk] at he
  rcases List.mem_append.mp he with h1 | h1
  · obtain ⟨v, hvmem, rfl⟩ := List.mem_map.mp h1
    exact ⟨(vscoreOf_of_mem vec v hvmem hv).symm, rfl⟩
  · obtain ⟨k, hkmem, rfl⟩ := List.mem_map.mp h1
    have hkf := List.mem_filter.mp hkmem
    refine ⟨(vscoreOf_of_not_mem vec k.chunk_id (by simpa using hkf.2)).symm, ?_⟩
    exact (tscoreOf_of_mem kw k hkf.1 hk).symm

theorem merge_results_mem (cfg : HybridConfig) (vec : List VectorSearchResult)
    (kw : List FTSSearchResult) :
    ∀ r ∈ merge_results cfg vec kw,
      ∃ e ∈ mergeMap vec kw,
        r = ⟨e.chunk_id, [], [], [], [],
          cfg.vector_weight * e.vector_score + cfg.text_weight * e.text_score, 0, 0⟩ := by
  intro r hr
  unfold merge_results at hr
  have hmem := (List.perm_insertionSort byScoreDesc _).mem_iff.mp hr
  obtain ⟨e, he, hre⟩ := List.mem_map.mp hmem
  exact ⟨e, he, hre.symm⟩

/-- C4: the merge step scores every returned chunk id as
vector_weight * vector_score + text_weight * text_score, with 0 for a
channel that produced no hit for that id, and returns the merged list in
descending score order; with the default 0.7/0.3 weights, a pure vector
hit scores 0.7, a pure keyword hit scores 0.3, and the former outranks the
latter. -/
theorem merge_results_spec (cfg : HybridConfig) (vec : List VectorSearchResult)
    (kw : List FTSSearchResult)
    (hv : (vec.map (fun v => v.chunk_id)).Nodup)
    (hk : (kw.map (fun k => k.chunk_id)).Nodup) :
    (∀ r ∈ merge_results cfg vec kw,
      r.score = cfg.vector_weight * vscoreOf vec r.chunk_id +
        cfg.text_weight * tscoreOf kw r.chunk_id) ∧
    List.Sorted byScoreDesc (merge_results cfg vec kw) ∧
    (merge_results defaultHybridConfig [⟨"a".toList, 1⟩] [⟨"b".toList, 1⟩]).map
        (fun r => (r.chunk_id, r.score)) = [("a".toList, 7/10), ("b".toList, 3/10)] := by
  refine ⟨?_, ?_, ?_⟩
  · intro r hr
    obtain ⟨e, he, rfl⟩ := merge_results_mem cfg vec kw r hr
    obtain ⟨h1, h2⟩ := mergeMap_entry_spec vec kw hv hk e he
    dsimp
    rw [h1, h2]
  · simp only [merge_results]
    exact List.sorted_insertionSort byScoreDesc _
  · norm_num [merge_results, mergeMap, insertVectorHit, insertKeywordHit,
      defaultHybridConfig, mkHybridConfig, HybridConfig.postInit,
      List.insertionSort, List.orderedInsert, byScoreDesc]

/-- Witness for C4 at one pure-vector hit and one pure-keyword hit. -/
theorem merge_results_spec_witness :
    (([⟨"a".toList, (1 : ℚ)⟩] : List VectorSearchResult).map (fun v => v.chunk_id)).Nodup ∧
    (([⟨"b".toList, (1 : ℚ)⟩] : List FTSSearchResult).map (fun k => k.chunk_id)).Nodup ∧
    (merge_results defaultHybridConfig [⟨"a".toList, 1⟩] [⟨"b".toList, 1⟩]).map
        (fun r => (r.chunk_id, r.score)) = [("a".toList, 7/10), ("b".toList, 3/10)] :=
  ⟨by decide, by decide,
    (merge_results_spec defaultHybridConfig [⟨"a".toList, 1⟩] [⟨"b".toList, 1⟩]
      (by decide) (by decide)).2.2⟩

theorem chunkLoop_path_source (M : MarkdownChunker) (path source : Str) :
    ∀ (rest : List Str) (chunks : List MemoryChunk) (chunkIdx : Nat) (cur : List Str)
      (curStart : Int) (curSize i : Nat),
      (∀ c ∈ chunks, c.path = path ∧ c.source = source) →
      ∀ c ∈ M.chunkLoop path source chunks chunkIdx cur curStart curSize i rest,
        c.path = path ∧ c.source = source := by
  intro rest
  induction rest with
  | nil =>
    intro chunks chunkIdx cur curStart curSize i h c hc
    simp only [MarkdownChunker.chunkLoop] at hc
    split at hc
    · exact h c hc
    · rcases List.mem_append.mp hc with h1 | h1
      · exact h c h1
      · rw [List.mem_singleton.mp h1]
        exact ⟨rfl, rfl⟩
  | cons line rest ih =>
    intro chunks chunkIdx cur curStart curSize i h c hc
    simp only [MarkdownChunker.chunkLoop] at hc
    split at hc
    · refine ih _ _ _ _ _ _ ?_ c hc
      intro d hd
      rcases List.mem_append.mp hd with h1 | h1
      · exact h d h1
      · rw [List.mem_singleton.mp h1]
        exact ⟨rfl, rfl⟩
    · exact ih _ _ _ _ _ _ h c hc

theorem chunk_path_source (M : MarkdownChunker) (content path source : Str) :
    ∀ c ∈ M.chunk content path source, c.path = path ∧ c.source = source := by
  intro c hc
  unfold MarkdownChunker.chunk at hc
  split at hc
  · simp at hc
  · exact chunkLoop_path_source M path source _ [] 0 [] 0 0 0 (by simp) c hc

theorem upsertChunkRow_mem (x : ChunkRecord) :
    ∀ (l : List ChunkRecord) (r : ChunkRecord), r ∈ upsertChunkRow x l → r = x ∨ r ∈ l := by
  intro l
  induction l with
  | nil =>
    intro r hr
    rw [show upsertChunkRow x [] = [x] from rfl] at hr
    exact Or.inl (List.mem_singleton.mp hr)
  | cons g gs ih =>
    intro r hr
    unfold upsertChunkRow at hr
    split at hr
    · rcases List.mem_cons.mp hr with h1 | h1
      · exact Or.inl h1
      · exact Or.inr (List.mem_cons_of_mem g h1)
    · rcases List.mem_cons.mp hr with h1 | h1
      · exact Or.inr (h1 ▸ List.mem_cons_self g gs)
      · rcases ih r h1 with h2 | h2
        · exact Or.inl h2
        · exact Or.inr (List.mem_cons_of_mem g h2)

theorem upsertChunkRow_fresh (x : ChunkRecord) :
    ∀ (l : List ChunkRecord), x.id ∉ l.map (fun r => r.id) →
    upsertChunkRow x l = l ++ [x] := by
  intro l
  induction l with
  | nil => intro _; rfl
  | cons g gs ih =>
    intro h
    simp only [List.map_cons, List.mem_cons, not_or] at h
    unfold upsertChunkRow
    rw [if_neg (fun he => h.1 he.symm), ih h.2]
    rfl

theorem fold_upsert_files (I : MemoryIndexer) :
    ∀ (cs : List MemoryChunk) (st : StorageState),
    (cs.foldl (fun acc c => acc.upsert_chunk (I.recordOf c)) st).files = st.files := by
  intro cs
  induction cs with
  | nil => intro st; rfl
  | cons c cs ih => intro st; rw [List.foldl_cons, ih]; rfl

theorem fold_upsert_chunks_mem (I : MemoryIndexer) :
    ∀ (cs : List MemoryChunk) (st : StorageState) (r : ChunkRecord),
    r ∈ (cs.foldl (fun acc c => acc.upsert_chunk (I.recordOf c)) st).chunks →
    r ∈ st.chunks ∨ ∃ c ∈ cs, r = I.recordOf c := by
  intro cs
  induction cs with
  | nil => intro st r hr; exact Or.inl hr
  | cons c cs ih =>
    intro st r hr
    rw [List.foldl_cons] at hr
    rcases ih _ r hr with h1 | h1
    · rcases upsertChunkRow_mem _ _ r h1 with h2 | h2
      · exact Or.inr ⟨c, List.mem_cons_self c cs, h2⟩
      · exact Or.inl h2
    · obtain ⟨c2, hc2, he⟩ := h1
      exact Or.inr ⟨c2, List.mem_cons_of_mem c hc2, he⟩

theorem fold_upsert_fresh (I : MemoryIndexer) :
    ∀ (cs : List MemoryChunk) (st : StorageState),
    (∀ c ∈ cs, c.id ∉ st.chunks.map (fun r => r.id)) →
    ((cs.map (fun c => c.id)).Nodup) →
    (cs.foldl (fun acc c => acc.upsert_chunk (I.recordOf c)) st).chunks =
      st.chunks ++ cs.map I.recordOf := by
  intro cs
  induction cs with
  | nil => intro st _ _; simp
  | cons c cs ih =>
    intro st hfresh hnd
    simp only [List.map_cons, List.nodup_cons] at hnd
    rw [List.foldl_cons]
    have hrow : (st.upsert_chunk (I.recordOf c)).chunks = st.chunks ++ [I.recordOf c] :=
      upsertChunkRow_fresh (I.recordOf c) st.chunks
        (hfresh c (List.mem_cons_self c cs))
    have hfresh2 : ∀ d ∈ cs, d.id ∉
        (st.upsert_chunk (I.recordOf c)).chunks.map (fun r => r.id) := by
      intro d hd
      rw [hrow]
      simp only [List.map_append, List.mem_append, not_or, List.map_cons, List.map_nil,
        List.mem_singleton]
      refine ⟨hfresh d (List.mem_cons_of_mem c hd), fun he => ?_⟩
      have he2 : d.id = c.id := he
      exact hnd.1 (he2 ▸ List.mem_map_of_mem (fun c => c.id) hd)
    rw [ih _ hfresh2 hnd.2, hrow]
    simp

theorem filter_pair_of_filter_not (l : List ChunkRecord) (p s : Str) :
    (l.filter (fun r => ¬ (r.path = p ∧ r.source = s))).filter
      (fun r => r.path = p ∧ r.source = s) = [] := by
  induction l with
  | nil => rfl
  | cons g gs ih =>
    by_cases hg : g.path = p ∧ g.source = s
    · simp only [List.filter_cons]
      rw [if_neg (by simp [hg.1, hg.2])]
      exact ih
    · simp only [List.filter_cons]
      rw [if_pos (by simp [hg])]
      rw [List.filter_cons, if_neg (by simp [hg])]
      exact ih

theorem index_file_chunks_sub (I : MemoryIndexer) (st : StorageState) (p A s : Str)
    (mt : Int) :
    ∀ r ∈ ((I.index_file st p A s mt).2).chunks,
      ¬ (r.path = p ∧ r.source = s) → r ∈ st.chunks := by
  intro r hr hnot
  simp only [MemoryIndexer.index_file] at hr
  split at hr
  · exact hr
  · split at hr
    · simp only [StorageState.upsert_file, StorageState.delete_chunks_by_path] at hr
      exact (List.mem_filter.mp hr).1
    · simp only [StorageState.upsert_file] at hr
      rcases fold_upsert_chunks_mem I _ _ r hr with h1 | h1
      · simp only [StorageState.delete_chunks_by_path] at h1
        exact (List.mem_filter.mp h1).1
      · obtain ⟨c, hc, rfl⟩ := h1
        obtain ⟨hcp, hcs⟩ := chunk_path_source I.chunker A p s c hc
        exact absurd ⟨hcp, hcs⟩ hnot

/-- C3: after indexing content A for a path and then indexing content B
with a different hash for the same path and source, get_chunks_by_path
returns exactly the records built from chunking B — no chunk derived from
A (or from any earlier content of the file) remains stored. The
hypotheses state the primary-key discipline of the chunks table: the ids
of the new chunks are distinct, and no row of another file shares an id
with them. -/
theorem index_file_full_replace (I : MemoryIndexer) (st : StorageState)
    (p A B s : Str) (mt1 mt2 : Int)
    (hAB : I.fileHash A ≠ I.fileHash B)
    (hB : ((I.chunker.chunk B p s).map (fun c => c.id)).Nodup)
    (hFree : ∀ r ∈ st.chunks, r.id ∈ (I.chunker.chunk B p s).map (fun c => c.id) →
      r.path = p ∧ r.source = s) :
    ((I.index_file (I.index_file st p A s mt1).2 p B s mt2).2).get_chunks_by_path p s =
      (I.chunker.chunk B p s).map I.recordOf := by
  have hhash := index_file_sets_hash I st p A s mt1
  have hsub := index_file_chunks_sub I st p A s mt1
  generalize hst1 : (I.index_file st p A s mt1).2 = st1 at hhash hsub ⊢
  simp only [MemoryIndexer.index_file]
  rw [if_neg (by rw [hhash]; simpa using hAB)]
  have hbase : ((st1.delete_chunks_by_path p s).2).chunks =
      st1.chunks.filter (fun r => ¬ (r.path = p ∧ r.source = s)) := rfl
  by_cases hempty : (I.chunker.chunk B p s).isEmpty
  · rw [if_pos hempty]
    have hBnil : I.chunker.chunk B p s = [] := List.isEmpty_iff.mp hempty
    rw [hBnil]
    simp only [StorageState.get_chunks_by_path, StorageState.upsert_file, hbase,
      List.map_nil]
    exact filter_pair_of_filter_not st1.chunks p s
  · rw [if_neg hempty]
    have hfresh : ∀ c ∈ I.chunker.chunk B p s,
        c.id ∉ ((st1.delete_chunks_by_path p s).2).chunks.map (fun r => r.id) := by
      intro c hc hmem
      obtain ⟨r, hrmem, hrid⟩ := List.mem_map.mp hmem
      rw [hbase] at hrmem
      have hrfilter := List.mem_filter.mp hrmem
      have hrst : r ∈ st.chunks :=
        hsub r hrfilter.1 (of_decide_eq_true hrfilter.2)
      have := hFree r hrst (hrid ▸ List.mem_map_of_mem (fun c => c.id) hc)
      exact absurd this (of_decide_eq_true hrfilter.2)
    simp only [StorageState.get_chunks_by_path, StorageState.upsert_file]
    rw [fold_upsert_fresh I _ _ hfresh hB]
    rw [List.filter_append, hbase, filter_pair_of_filter_not st1.chunks p s,
      List.nil_append]
    refine List.filter_eq_self.mpr (fun r hr => ?_)
    obtain ⟨c, hc, rfl⟩ := List.mem_map.mp hr
    obtain ⟨hcp, hcs⟩ := chunk_path_source I.chunker B p s c hc
    simp only [decide_eq_true_eq]
    exact ⟨hcp, hcs⟩

/-- Witness for C3: an empty store, content x replaced by content y. -/
theorem index_file_full_replace_witness :
    idHash ("x".toList) ≠ idHash ("y".toList) ∧
    ((fixtureIndexer.chunker.chunk ("y".toList) ("f".toList) ("docs".toList)).map
      (fun c => c.id)).Nodup ∧
    ((fixtureIndexer.index_file
        (fixtureIndexer.index_file StorageState.empty ("f".toList) ("x".toList)
          ("docs".toList) 0).2
        ("f".toList) ("y".toList) ("docs".toList) 0).2).get_chunks_by_path
      ("f".toList) ("docs".toList) =
      (fixtureIndexer.chunker.chunk ("y".toList) ("f".toList) ("docs".toList)).map
        fixtureIndexer.recordOf :=
  ⟨by decide, by decide,
    index_file_full_replace fixtureIndexer StorageState.empty ("f".toList) ("x".toList)
      ("y".toList) ("docs".toList) 0 0 (by decide) (by decide)
      (fun r hr _ => absurd hr (by simp [StorageState.empty]))⟩

theorem insertVectorHit_mem_elem :
    ∀ (m : List MergeEntry) (v : VectorSearchResult) (e : MergeEntry),
    e ∈ insertVectorHit m v → e ∈ m ∨ e.chunk_id = v.chunk_id := by
  intro m
  induction m with
  | nil =>
    intro v e he
    rw [show insertVectorHit [] v = [⟨v.chunk_id, v.score, 0⟩] from rfl] at he
    rw [List.mem_singleton.mp he]
    exact Or.inr rfl
  | cons g gs ih =>
    intro v e he
    unfold insertVectorHit at he
    split at he
    · rcases List.mem_cons.mp he with h1 | h1
      · rw [h1]; exact Or.inr rfl
      · exact Or.inl (List.mem_cons_of_mem g h1)
    · rcases List.mem_cons.mp he with h1 | h1
      · exact Or.inl (h1 ▸ List.mem_cons_self g gs)
      · rcases ih v e h1 with h2 | h2
        · exact Or.inl (List.mem_cons_of_mem g h2)
        · exact Or.inr h2

theorem insertKeywordHit_mem_elem :
    ∀ (m : List MergeEntry) (k : FTSSearchResult) (e : MergeEntry),
    e ∈ insertKeywordHit m k →
      (∃ e0 ∈ m, e.chunk_id = e0.chunk_id) ∨ e.chunk_id = k.chunk_id := by
  intro m
  induction m with
  | nil =>
    intro k e he
    rw [show insertKeywordHit [] k = [⟨k.chunk_id, 0, k.score⟩] from rfl] at he
    rw [List.mem_singleton.mp he]
    exact Or.inr rfl
  | cons g gs ih =>
    intro k e he
    unfold insertKeywordHit at he
    split at he
    · rcases List.mem_cons.mp he with h1 | h1
      · exact Or.inl ⟨g, List.mem_cons_self g gs, by rw [h1]⟩
      · exact Or.inl ⟨e, List.mem_cons_of_mem g h1, rfl⟩
    · rcases List.mem_cons.mp he with h1 | h1
      · exact Or.inl ⟨g, List.mem_cons_self g gs, by rw [h1]⟩
      · rcases ih k e h1 with h2 | h2
        · obtain ⟨e0, he0, heq⟩ := h2
          exact Or.inl ⟨e0, List.mem_cons_of_mem g he0, heq⟩
        · exact Or.inr h2

theorem vec_foldl_ids :
    ∀ (vec : List VectorSearchResult) (m : List MergeEntry) (e : MergeEntry),
    e ∈ vec.foldl insertVectorHit m →
      e ∈ m ∨ e.chunk_id ∈ vec.map (fun v => v.chunk_id) := by
  intro vec
  induction vec with
  | nil => intro m e he; exact Or.inl he
  | cons v vs ih =>
    intro m e he
    rw [List.foldl_cons] at he
    rcases ih _ e he with h1 | h1
    · rcases insertVectorHit_mem_elem m v e h1 with h2 | h2
      · exact Or.inl h2
      · exact Or.inr (by simp [h2])
    · exact Or.inr (by simp; right; simpa using h1)

theorem kw_foldl_ids :
    ∀ (kw : List FTSSearchResult) (m : List MergeEntry) (e : MergeEntry),
    e ∈ kw.foldl insertKeywordHit m →
      (∃ e0 ∈ m, e.chunk_id = e0.chunk_id) ∨ e.chunk_id ∈ kw.map (fun k => k.chunk_id) := by
  intro kw
  induction kw with
  | nil => intro m e he; exact Or.inl ⟨e, he, rfl⟩
  | cons k ks ih =>
    intro m e he
    rw [List.foldl_cons] at he
    rcases ih _ e he with h1 | h1
    · obtain ⟨e0, he0, heq⟩ := h1
      rcases insertKeywordHit_mem_elem m k e0 he0 with h2 | h2
      · obtain ⟨e1, he1, heq2⟩ := h2
        exact Or.inl ⟨e1, he1, heq.trans heq2⟩
      · exact Or.inr (by simp [heq.trans h2])
    · exact Or.inr (by simp; right; simpa using h1)

theorem mergeMap_ids (vec : List VectorSearchResult) (kw : List FTSSearchResult) :
    ∀ e ∈ mergeMap vec kw,
      e.chunk_id ∈ vec.map (fun v => v.chunk_id) ∨
      e.chunk_id ∈ kw.map (fun k => k.chunk_id) := by
  intro e he
  unfold mergeMap at he
  rcases kw_foldl_ids kw _ e he with h1 | h1
  · obtain ⟨e0, he0, heq⟩ := h1
    rcases vec_foldl_ids vec [] e0 he0 with h2 | h2
    · simp at h2
    · exact Or.inl (heq ▸ h2)
  · exact Or.inr h1

theorem search_vectors_manual_source (db : List ChunkRecord)
    (cosSim : List ℚ → List ℚ → Option ℚ) (qv : List ℚ) (limit : Nat) (s0 : Str) :
    ∀ v ∈ search_vectors_manual db cosSim qv limit (some [s0]),
      ∃ c ∈ db, c.id = v.chunk_id ∧ c.source = s0 := by
  intro v hv
  unfold search_vectors_manual at hv
  have hv2 := (List.perm_insertionSort byVScoreDesc _).mem_iff.mp
    (List.Sublist.mem hv (List.take_sublist limit _))
  obtain ⟨c, hc, hcv⟩ := List.mem_filterMap.mp hv2
  have hcdb := List.mem_filter.mp hc
  obtain ⟨hsrc, _⟩ := of_decide_eq_true hcdb.2
  obtain ⟨sc, _, hv3⟩ := Option.map_eq_some'.mp hcv
  refine ⟨c, hcdb.1, by rw [← hv3], ?_⟩
  have : c.source ∈ [s0] := List.elem_iff.mp (by simpa [sourceOk] using hsrc)
  simpa using this

theorem search_fts_single_source (db : List ChunkRecord)
    (ftsMatch : Str → ChunkRecord → Bool) (rank : Str → ChunkRecord → ℚ)
    (q : Str) (limit : Nat) (s0 : Str) :
    ∀ fr ∈ search_fts db ftsMatch rank q limit (some [s0]),
      ∃ c ∈ db, c.id = fr.chunk_id ∧ c.source = s0 := by
  intro fr hfr
  simp only [search_fts] at hfr
  obtain ⟨c, hc, hcfr⟩ := List.mem_map.mp hfr
  have hc2 := (List.perm_insertionSort (byRankAsc (rank q)) _).mem_iff.mp
    (List.Sublist.mem hc (List.take_sublist limit _))
  have hcdb := List.mem_filter.mp hc2
  obtain ⟨_, hsrc⟩ := of_decide_eq_true hcdb.2
  exact ⟨c, hcdb.1, by rw [← hcfr], hsrc⟩

theorem enrich_results_source (db : List ChunkRecord) (s0 : Str)
    (results : List SearchResult)
    (hnd : (db.map (fun r => r.id)).Nodup)
    (hres : ∀ r0 ∈ results, ∃ c ∈ db, c.id = r0.chunk_id ∧ c.source = s0) :
    ∀ r ∈ enrich_results (fun i => db.find? (fun x => x.id = i)) results,
      r.source = s0 := by
  intro r hr
  unfold enrich_results at hr
  obtain ⟨r0, hr0, hrr⟩ := List.mem_map.mp hr
  obtain ⟨c, hcdb, hcid, hcsrc⟩ := hres r0 hr0
  have hfind : db.find? (fun x => x.id = r0.chunk_id) = some c := by
    rw [← hcid]
    exact find?_key_self (fun x => x.id) db c hcdb hnd
  beta_reduce at hrr
  rw [hfind] at hrr
  rw [← hrr]
  exact hcsrc

theorem merge_candidates_source (db : List ChunkRecord) (cfg : HybridConfig)
    (cosSim : List ℚ → List ℚ → Option ℚ) (ftsMatch : Str → ChunkRecord → Bool)
    (rank : Str → ChunkRecord → ℚ) (qv : List ℚ) (q : Str) (cand : Nat) (s0 : Str) :
    ∀ r0 ∈ merge_results cfg (search_vectors_manual db cosSim qv cand (some [s0]))
        (search_fts db ftsMatch rank q cand (some [s0])),
      ∃ c ∈ db, c.id = r0.chunk_id ∧ c.source = s0 := by
  intro r0 hr0
  obtain ⟨e, he, rfl⟩ := merge_results_mem cfg _ _ r0 hr0
  rcases mergeMap_ids _ _ e he with h1 | h1
  · obtain ⟨v, hv, hvid⟩ := List.mem_map.mp h1
    obtain ⟨c, hc, hcid, hcs⟩ := search_vectors_manual_source db cosSim qv cand s0 v hv
    exact ⟨c, hc, by rw [hcid, hvid], hcs⟩
  · obtain ⟨k, hk, hkid⟩ := List.mem_map.mp h1
    obtain ⟨c, hc, hcid, hcs⟩ := search_fts_single_source db ftsMatch rank q cand s0 k hk
    exact ⟨c, hc, by rw [hcid, hkid], hcs⟩

/-- C6: with source_filter = [s0], every result returned by the
storage-backed hybrid search has source = s0 — both retrieval channels
only surface rows of that source and enrichment re-reads the same rows by
primary key. The hypothesis is the primary-key uniqueness of chunk
ids. -/
theorem search_source_filter_sound (db : List ChunkRecord) (cfg : HybridConfig)
    (embed : Str → Except Str (List ℚ)) (cosSim : List ℚ → List ℚ → Option ℚ)
    (ftsMatch : Str → ChunkRecord → Bool) (rank : Str → ChunkRecord → ℚ)
    (q : Str) (n : Nat) (ms : Option ℚ) (s0 : Str)
    (hnd : (db.map (fun r => r.id)).Nodup) :
    ∀ out, (mkStorageSearcher db cfg embed cosSim ftsMatch rank).search q n ms
        (some [s0]) = Except.ok out →
      ∀ r ∈ out, r.source = s0 := by
  intro out hout r hr
  unfold MemorySearcher.search at hout
  split at hout
  · rw [← Except.ok.inj hout] at hr
    simp at hr
  · simp only [mkStorageSearcher] at hout
    split at hout
    · exact absurd hout (by simp)
    · rw [← Except.ok.inj hout] at hr
      refine enrich_results_source db s0 _ hnd ?_ r hr
      intro r0 hr0
      have hr0m := List.mem_of_mem_filter
        (List.Sublist.mem hr0 (List.take_sublist n _))
      exact merge_candidates_source db cfg cosSim ftsMatch rank _ q _ s0 r0 hr0m

/-- Witness for C6 over a two-row store (one docs row, one memory row). -/
theorem search_source_filter_sound_witness :
    (([docsRec, memRec].map (fun r => r.id)).Nodup) ∧
    (∀ out, fixtureSearcher.search ("alpha".toList) 3 none
        (some ["docs".toList]) = Except.ok out →
      ∀ r ∈ out, r.source = ("docs".toList)) :=
  ⟨by decide,
    search_source_filter_sound [docsRec, memRec] defaultHybridConfig
      (fun _ => Except.ok [1]) (fun _ _ => some 1) (fun _ _ => true) (fun _ _ => 0)
      ("alpha".toList) 3 none ("docs".toList) (by decide)⟩
